import Mathlib

/-!
# Verification of the pgmlink merger-resolution core

Shallow embedding of the merger-resolution code of the pgmlink repository
(`include/pgmlink/track_features_auxiliary.h`, the header historically named
`hanslovsky.h`) together with proofs about the embedded definitions.

The header contains full bodies for
  * `feature_array_to_arma_mat` (flat sample array to column-major matrix),
  * `get_centers` (cluster centers from data and label assignments),
  * the `MergerResolver` constructor (attachment checks, lazy provenance maps),
  * `MergerResolver::collect_arcs` (arc collection into a vector).
These are translated directly from the source.

The bodies of `MergerResolver::resolve_mergers`, `MergerResolver::refine_node`,
`ResolveAmbiguousArcsGreedy::operator()`, `ResolveAmbiguousArcsPgm::operator()`
and `KMeans::operator()` are only declared in the header (their translation
units are not part of the shown sources); those operations are modelled from
the specification, and each such definition is marked `Modelled from the spec`.

Numeric conventions: C++ `double` values (feature coordinates, arc distances)
are embedded as `ℚ`; where IEEE division by zero matters (`get_centers`),
values are embedded as `Option ℚ` with `none` standing for a non-finite IEEE
value (NaN or an infinity).  Sizes and identifiers are embedded as `ℕ`
(`unsigned int` / `size_t` in the source; no realistic input approaches the
wrap-around of those types, and the C++ code performs no subtractions on them).
-/

namespace Pgmlink

/-! ## Attachment state of a `HypothesesGraph` (constructor view)

The `MergerResolver` constructor only inspects and mutates which property
attachments exist on the graph, so for claims about the constructor the graph
is abstracted to the presence flags of the five properties it mentions. -/

structure GraphProps where
  node_active2 : Bool
  arc_active : Bool
  arc_distance : Bool
  merger_resolved_to : Bool
  node_originated_from : Bool
deriving DecidableEq, Fintype

/-- Embedding of the `MergerResolver(HypothesesGraph* g)` constructor.

The C++ constructor receives a pointer (`none` models a null pointer) and runs:
```
if (!g_) throw runtime_error("HypotesesGraph g_ is a null pointer!");
if (!g_->has_property(merger_resolved_to())) g_->add(merger_resolved_to());
if (!g_->has_property(node_active2())) throw ...;
if (!g_->has_property(arc_active())) throw ...;
if (!g_->has_property(arc_distance())) throw ...;
if (!g_->has_property(node_originated_from())) g_->add(node_originated_from());
```
Throwing leaves the pointed-to graph in whatever state it reached, so the
error case carries the graph state at the moment of the throw (`none` when the
pointer itself was null and no graph exists).  The success case carries the
final graph state. -/
def mergerResolverCtor (g : Option GraphProps) : Except (Option GraphProps) GraphProps :=
  match g with
  | none => .error none
  | some g0 =>
    let g1 := if g0.merger_resolved_to then g0 else { g0 with merger_resolved_to := true }
    if g1.node_active2 = false then .error (some g1)
    else if g1.arc_active = false then .error (some g1)
    else if g1.arc_distance = false then .error (some g1)
    else .ok (if g1.node_originated_from then g1 else { g1 with node_originated_from := true })

/-- `true` exactly on the error case of an `Except`. -/
def exceptErr {ε α : Type} : Except ε α → Bool
  | .error _ => true
  | .ok _ => false

instance instDecEqExcept {ε α : Type} [DecidableEq ε] [DecidableEq α] :
    DecidableEq (Except ε α) := fun a b =>
  match a, b with
  | .error e, .error f =>
    if h : e = f then isTrue (by rw [h]) else isFalse (by intro hc; cases hc; exact h rfl)
  | .error _, .ok _ => isFalse (by intro hc; cases hc)
  | .ok _, .error _ => isFalse (by intro hc; cases hc)
  | .ok x, .ok y =>
    if h : x = y then isTrue (by rw [h]) else isFalse (by intro hc; cases hc; exact h rfl)

/-! ## `MergerResolver::collect_arcs`

```
template <typename ArcIterator>
void MergerResolver::collect_arcs(ArcIterator arcIt, std::vector<Arc>& res) {
  assert(res.size() == 0);
  for (; arcIt != lemon::INVALID; ++arcIt) { res.push_back(arcIt); }
}
```
The arc iterator is embedded as the list of arcs it yields, in iteration
order; the assertion is embedded as a guard (`none` models the assertion
firing on a non-empty accumulator). -/
def collect_arcs {α : Type} (arcIt : List α) (res : List α) : Option (List α) :=
  if res.length = 0 then some (arcIt.foldl (fun r a => r ++ [a]) res) else none

/-! ## Clustering primitives

`feature_type` is `double`; a matrix entry is embedded as `Option ℚ`, with
`none` standing for a non-finite IEEE value (NaN or an infinity).  The only
operation below that can produce a non-finite value from finite ones is the
division of a cluster-center column by the cluster size: when the size is `0`
the numerator is an untouched all-zero column and IEEE yields `0.0/0.0 = NaN`
in every coordinate, embedded as `none`. -/

abbrev QF := Option ℚ

/-- IEEE addition on finite-or-non-finite values: finite plus finite is
finite, anything involving a non-finite operand is non-finite. -/
def qfAdd : QF → QF → QF
  | some a, some b => some (a + b)
  | _, _ => none

/-- Division of a matrix entry by an integer cluster size (`centers.col(i) /=
clusterSize[i]`).  A zero divisor yields a non-finite IEEE value (`0.0/0.0 =
NaN` on the all-zero columns that occur in `get_centers`; a nonzero numerator
would give an infinity, likewise non-finite). -/
def qfDiv (x : QF) (c : ℕ) : QF :=
  match x with
  | none => none
  | some a => if c = 0 then none else some (a / (c : ℚ))

/-- An `arma::Mat` is embedded as its list of columns (column-major, matching
the source's column-wise access pattern). -/
abbrev Mat := List (List QF)

/-- `centers.zeros()`: zero every entry in place, keeping the dimensions. -/
def zerosLike (m : Mat) : Mat := m.map (fun c => c.map (fun _ => (some 0 : QF)))

/-- `centers.col(l) = centers.col(l) + data.col(n)` — columnwise addition. -/
def colAdd (c d : List QF) : List QF := List.zipWith qfAdd c d

/-- First loop of `get_centers`:
```
for (unsigned int n = 0; n < data.n_cols; ++n, ++labelIt) {
  ++clusterSize[*labelIt];
  centers.col(*labelIt) = centers.col(*labelIt) + data.col(n);
}
```
The label iterator is consumed in lockstep with the data columns; running the
iterator past the end of `labels`, or indexing `clusterSize` or the columns of
`centers` with an out-of-range label, is an out-of-bounds memory access,
modelled as `none`. -/
def gcLoop : Mat → List ℕ → List ℕ → Mat → Option (List ℕ × Mat)
  | [], _, cs, cen => some (cs, cen)
  | _ :: _, [], _, _ => none
  | dcol :: dcols, l :: ls, cs, cen =>
    if l < cs.length ∧ l < cen.length then
      gcLoop dcols ls (cs.set l (cs.getD l 0 + 1)) (cen.set l (colAdd (cen.getD l []) dcol))
    else none

/-- Second loop of `get_centers`:
```
for (int i = 0; i < k; ++i) { centers.col(i) /= clusterSize[i]; }
```
`divLoop cs i r cen` runs the iterations `i, i+1, …, i+r-1`; the entry call is
`divLoop cs 0 k cen`.  Out-of-bounds column or `clusterSize` access is `none`. -/
def divLoop (cs : List ℕ) : ℕ → ℕ → Mat → Option Mat
  | _, 0, cen => some cen
  | i, r + 1, cen =>
    if i < cs.length ∧ i < cen.length then
      divLoop cs (i + 1) r (cen.set i ((cen.getD i []).map (fun x => qfDiv x (cs.getD i 0))))
    else none

/-- Embedding of `get_centers(data, labels, centers, k)`:
```
arma::Col<size_t>::const_iterator labelIt = labels.begin();
std::vector<int> clusterSize(k, 0);
centers.zeros();
<first loop>  <second loop>
```
Returns the final `centers` matrix, or `none` if an out-of-bounds memory
access occurs. -/
def get_centers (data : Mat) (labels : List ℕ) (centers : Mat) (k : ℕ) : Option Mat :=
  match gcLoop data labels (List.replicate k 0) (zerosLike centers) with
  | none => none
  | some (cs, cen) => divLoop cs 0 k cen

/-- The arithmetic mean of a list of same-length rational coordinate columns,
taken pointwise: coordinate `j` of the mean is the sum of the `j`-th
coordinates divided by the number of samples. -/
def arithMean (qs : List (List ℚ)) (d : ℕ) : List ℚ :=
  (List.range d).map (fun j => (qs.map (fun c => c.getD j 0)).sum / (qs.length : ℚ))

/-! ## `feature_array_to_arma_mat` and the modelled `KMeans` body -/

/-- Splitting a flat array into `n` consecutive columns of `r` entries each —
the copy loop of `feature_array_to_arma_mat` (column-major fill). -/
def chunkCols : List QF → ℕ → ℕ → Mat
  | _, _, 0 => []
  | l, r, n + 1 => l.take r :: chunkCols (l.drop r) r n

/-- Embedding of `feature_array_to_arma_mat(in, out)`:
```
int stepSize = out.n_rows;  int n = out.n_cols;
if (stepSize*n != (int)in.size())
  throw std::range_error("Source vector dimension and matrix dimensions do not agree!");
<copy loop: fill the n columns with stepSize consecutive entries each>
```
The output matrix's preset dimensions are passed as `nrows`/`ncols`; the `int`
arithmetic of the guard is exact for all sizes below `2^31`. -/
def feature_array_to_arma_mat (inp : List QF) (nrows ncols : ℕ) : Except String Mat :=
  if nrows * ncols ≠ inp.length then
    .error "Source vector dimension and matrix dimensions do not agree!"
  else
    .ok (chunkCols inp nrows ncols)

/-- Modelled from the spec: the body of `KMeans::operator()` is not among the
shown sources (only its declaration and doc comment are).  Per the spec it
converts the flat `data_` array into a `d × (size/d)` matrix via
`feature_array_to_arma_mat` (so it "fails if the sample count is not evenly
divisible by the expected dimensionality"), "fails if k exceeds the sample
count", delegates the partitioning to the external mlpack clustering (whose
sample-to-cluster assignment is abstracted as the `assign` argument), and
recovers the `k` cluster-center coordinates with `get_centers`, returning them
as a flat array. -/
def KMeansRun (assign : ℕ → ℕ) (d k : ℕ) (data : List QF) : Except String (List QF) :=
  match feature_array_to_arma_mat data d (data.length / d) with
  | .error e => .error e
  | .ok m =>
    if m.length < k then .error "k exceeds the sample count"
    else
      let labels := (List.range m.length).map assign
      match get_centers m labels (chunkCols (List.replicate (d * k) (some 0)) d k) k with
      | none => .error "invalid cluster assignment"
      | some cen => .ok cen.flatten

/-! ## The hypotheses graph: nodes, arcs, and the merger-resolution pipeline

The bodies of `MergerResolver::resolve_mergers`, `MergerResolver::refine_node`
and the two ambiguous-arc resolvers are not among the shown sources (only the
declarations in the header are), so this part of the data model and the
operations on it are modelled from the specification.  Following the spec's
design notes, the graph is an entity-component store: node and arc records in
lists, with the property attachments (`node_active2` viewed as the active
flag plus the merger count, `arc_active`, `arc_distance`,
`node_originated_from`, `merger_resolved_to`, `node_traxel`) as fields of the
records. -/

/-- The object record bound to a node: a stable identifier (unique within its
time index), the time index, and the estimated-center feature. -/
structure Traxel where
  tid : ℕ
  timestep : ℕ
  com : List ℚ
deriving DecidableEq

/-- A node reference: time index and per-time-index identifier (identifiers
are unique per time index, so this pair identifies a node). -/
structure NodeId where
  t : ℕ
  i : ℕ
deriving DecidableEq

/-- A node record with its property attachments. -/
structure NodeRec where
  trax : Traxel
  active : Bool
  mcount : ℕ
  origFrom : Option ℕ
  resolvedTo : List ℕ
deriving DecidableEq

def nodeIdOf (n : NodeRec) : NodeId := ⟨n.trax.timestep, n.trax.tid⟩

/-- An arc record with its property attachments (`arc_active`,
`arc_distance`). -/
structure ArcRec where
  src : NodeId
  dst : NodeId
  active : Bool
  weight : ℚ
deriving DecidableEq

instance : Inhabited ArcRec := ⟨⟨⟨0, 0⟩, ⟨0, 0⟩, false, 0⟩⟩

structure Graph where
  nodes : List NodeRec
  arcs : List ArcRec
deriving DecidableEq

/-- Pair every element of a list with its position, starting at `n` (arc
creation order; used both as the deterministic tie-break order and as the arc
identity). -/
def withIdx {α : Type} : ℕ → List α → List (ℕ × α)
  | _, [] => []
  | n, a :: t => (n, a) :: withIdx (n + 1) t

/-- The endpoint of an arc in the given direction: `true` selects the target
(incoming-arc view), `false` the source (outgoing-arc view). -/
def endpt (inc : Bool) (a : ArcRec) : NodeId := if inc then a.dst else a.src

/-- The number of active arcs of `arcs` with the given endpoint at `v` —
the node's active incoming (`inc = true`) or outgoing (`inc = false`)
degree. -/
def countActive (inc : Bool) (arcs : List ArcRec) (v : NodeId) : ℕ :=
  arcs.countP (fun a => a.active && endpt inc a == v)

/-- Fold selecting the entry with strictly smallest weight, keeping the
earlier entry on ties (entries are scanned in creation order). -/
def pickBest : Option (ℕ × ArcRec) → List (ℕ × ArcRec) → Option (ℕ × ArcRec)
  | acc, [] => acc
  | none, p :: rest => pickBest (some p) rest
  | some q, p :: rest => pickBest (some (if p.2.weight < q.2.weight then p else q)) rest

/-- The position of the minimum-weight active arc with endpoint `v` in the
given direction (earliest position on weight ties), if any. -/
def bestDir (inc : Bool) (arcs : List ArcRec) (v : NodeId) : Option ℕ :=
  (pickBest none ((withIdx 0 arcs).filter (fun p => p.2.active && endpt inc p.2 == v))).map
    (fun p => p.1)

/-- One greedy pass over one direction: every active arc survives exactly if
it is the minimum-weight active arc (earliest on ties) of its endpoint node
in that direction; all other arcs of a multiply-connected node are
deactivated, and inactive arcs stay inactive. -/
def resolveDir (inc : Bool) (arcs : List ArcRec) : List ArcRec :=
  (withIdx 0 arcs).map (fun p =>
    { p.2 with active := p.2.active && (bestDir inc arcs (endpt inc p.2) == some p.1) })

/-- Modelled from the spec: the body of `ResolveAmbiguousArcsGreedy::operator()`
is not among the shown sources.  Per the spec, for every node with more than
one active incoming (respectively outgoing) arc the minimum-weight arc is
kept and the rest deactivated, with ties broken by the deterministic arc
creation order.  The two directions are resolved sequentially — incoming arcs
first over the currently active arcs, then outgoing arcs over the arcs still
active (the per-node rules of the two directions can conflict, so no
implementation can apply both simultaneously). -/
def greedyResolve (g : Graph) : Graph :=
  { g with arcs := resolveDir false (resolveDir true g.arcs) }

/-- Total weight of a selection of arc positions. -/
def arcCost (arcs : List ArcRec) (S : List ℕ) : ℚ :=
  (S.map (fun i => (arcs.getD i default).weight)).sum

/-- The per-node at-most-one-arc-per-direction constraint on a selection of
arc positions: no two selected arcs share a target and no two share a
source. -/
def feasChk (arcs : List ArcRec) (S : List ℕ) : Bool :=
  decide (S.Pairwise (fun i j => (arcs.getD i default).dst ≠ (arcs.getD j default).dst
    ∧ (arcs.getD i default).src ≠ (arcs.getD j default).src))

/-- First selection of minimum cost in a list of candidate selections. -/
def pickMinCost (arcs : List ArcRec) : List (List ℕ) → List ℕ
  | [] => []
  | h :: t => t.foldl (fun b s => if arcCost arcs s < arcCost arcs b then s else b) h

/-- Modelled from the spec: the body of `ResolveAmbiguousArcsPgm::operator()`
(and the `ReasonerMaxOneArc` it builds on) is not among the shown sources.
Per the spec it formulates binary selection variables over the currently
active arcs with cost equal to arc weight, subject to the per-node
at-most-one constraint in each direction, solves exactly, and writes the
selected arcs back as active and all others inactive.  The exact inference is
modelled as exhaustive minimization over all feasible subsets of active-arc
positions, deterministic by taking the first minimum. -/
def pgmSelect (arcs : List ArcRec) : List ℕ :=
  pickMinCost arcs
    (((((withIdx 0 arcs).filter (fun p => p.2.active)).map Prod.fst).sublists).filter
      (fun S => feasChk arcs S))

def pgmResolve (g : Graph) : Graph :=
  { g with
    arcs := (withIdx 0 g.arcs).map (fun p =>
      { p.2 with active := decide (p.1 ∈ pgmSelect g.arcs) }) }

/-- The two interchangeable ambiguous-arc resolution policies. -/
inductive ResolverChoice
  | greedy
  | pgm
deriving DecidableEq

def applyResolver (rc : ResolverChoice) (g : Graph) : Graph :=
  match rc with
  | .greedy => greedyResolve g
  | .pgm => pgmResolve g

/-- `MergerResolver::get_max_id(ts)`: highest node identifier at the given
time index, scanning all nodes present at that index, active or not. -/
def get_max_id (g : Graph) (ts : ℕ) : ℕ :=
  (g.nodes.filter (fun n => n.trax.timestep == ts)).foldl (fun acc n => max acc n.trax.tid) 0

/-- A feature-extraction strategy (`FeatureExtractorBase`):
`extract(object, nMergers, maxId)` produces the sub-object records. -/
abbrev Extractor := Traxel → ℕ → ℕ → List Traxel

/-- A distance strategy (`DistanceBase`). -/
abbrev Distance := Traxel → Traxel → ℚ

/-- The feature-extractor contract stated by the spec: the extractor returns
exactly `nMergers` records, each at the same time index as the input object
and with a freshly allocated identifier greater than `maxId` (fresh
allocation also makes the new identifiers pairwise distinct). -/
def ExtractorOK (E : Extractor) : Prop :=
  ∀ trax n maxId,
    (E trax n maxId).length = n
    ∧ (∀ r ∈ E trax n maxId, r.timestep = trax.timestep ∧ maxId < r.tid)
    ∧ ((E trax n maxId).map (fun r => r.tid)).Nodup

/-- The object record of the node referenced by `v` (used to score candidate
arcs; a dangling reference yields a default record, unreachable on graphs
whose arcs connect existing nodes). -/
def traxOfId (g : Graph) (v : NodeId) : Traxel :=
  match g.nodes.find? (fun n => nodeIdOf n == v) with
  | some n => n.trax
  | none => ⟨0, 0, []⟩

/-- A new sub-object node: merger count 1, active, originated-from the merger
node's identifier. -/
def mkChild (mid : ℕ) (r : Traxel) : NodeRec :=
  { trax := r, active := true, mcount := 1, origFrom := some mid, resolvedTo := [] }

/-- The new nodes created for merger node `m` (spec step 4). -/
def childrenOf (E : Extractor) (g : Graph) (m : NodeRec) : List NodeRec :=
  (E m.trax m.mcount (get_max_id g m.trax.timestep)).map (mkChild m.trax.tid)

/-- The identifiers of the new nodes, recorded as `merger_resolved_to` on the
original merger node (spec step 6). -/
def childIds (E : Extractor) (g : Graph) (m : NodeRec) : List ℕ :=
  (E m.trax m.mcount (get_max_id g m.trax.timestep)).map (fun r => r.tid)

/-- Deactivate the merger node and record its resolved-to provenance; all
other node records are untouched. -/
def deactTo (mId : NodeId) (ids : List ℕ) (n : NodeRec) : NodeRec :=
  if nodeIdOf n = mId then { n with active := false, resolvedTo := ids } else n

/-- Deactivate the original arcs incident to the merger node. -/
def deactArcAt (mId : NodeId) (a : ArcRec) : ArcRec :=
  if a.src = mId ∨ a.dst = mId then { a with active := false } else a

/-- The candidate arcs wired for the new nodes (spec step 5): for each new
node and each collected active incoming (respectively outgoing) arc of the
merger node, an active arc from that arc's source to the new node
(respectively from the new node to that arc's target), weighted by the
distance strategy. -/
def candArcs (E : Extractor) (D : Distance) (g : Graph) (m : NodeRec) : List ArcRec :=
  let mId := nodeIdOf m
  let recs := E m.trax m.mcount (get_max_id g m.trax.timestep)
  let inArcs := g.arcs.filter (fun a => a.active && a.dst == mId)
  let outArcs := g.arcs.filter (fun a => a.active && a.src == mId)
  (recs.map (fun r =>
      inArcs.map (fun a =>
        ({ src := a.src, dst := ⟨r.timestep, r.tid⟩, active := true,
           weight := D (traxOfId g a.src) r } : ArcRec)))).flatten
  ++ (recs.map (fun r =>
      outArcs.map (fun a =>
        ({ src := ⟨r.timestep, r.tid⟩, dst := a.dst, active := true,
           weight := D r (traxOfId g a.dst) } : ArcRec)))).flatten

/-- Modelled from the spec: `MergerResolver::refine_node` (body not among the
shown sources) — spec steps 2-6 for one merger node: collect its active arcs,
recompute the maximum identifier at its time index, create the new nodes and
candidate arcs, deactivate the original node and all of its original arcs,
and record the resolved-to provenance. -/
def refine_node (E : Extractor) (D : Distance) (g : Graph) (m : NodeRec) : Graph :=
  { nodes := g.nodes.map (deactTo (nodeIdOf m) (childIds E g m)) ++ childrenOf E g m,
    arcs := g.arcs.map (deactArcAt (nodeIdOf m)) ++ candArcs E D g m }

/-- A node to be expanded: active with merger count at least 2. -/
def isMergerNode (n : NodeRec) : Bool := n.active && decide (2 ≤ n.mcount)

/-- Modelled from the spec: `MergerResolver::resolve_mergers` (body not among
the shown sources) — spec steps 1-8: enumerate the active merger nodes,
refine each in turn (the maximum identifier is recomputed inside each
refinement), then run the chosen ambiguous-arc resolver over the whole graph
and return it. -/
def resolve_mergers (E : Extractor) (D : Distance) (rc : ResolverChoice) (g : Graph) : Graph :=
  applyResolver rc ((g.nodes.filter isMergerNode).foldl (refine_node E D) g)

/-- The per-node predicate of claim C2: a node at the merger's time index
whose originated-from provenance names the merger's identifier, active, with
merger count 1. -/
def tgt (m : NodeRec) (n : NodeRec) : Bool :=
  n.trax.timestep == m.trax.timestep && n.origFrom == some m.trax.tid
    && n.active && n.mcount == 1

/-- Example strategies and graph used by the concrete witnesses. -/
def exampleExtractor : Extractor :=
  fun trax n maxId => (List.range n).map (fun j => ⟨maxId + 1 + j, trax.timestep, trax.com⟩)

def exampleDistance : Distance := fun _ _ => 0

def exampleMerger : NodeRec := ⟨⟨7, 3, [0, 0]⟩, true, 2, none, []⟩

def exampleGraph : Graph := { nodes := [exampleMerger], arcs := [] }

/-! ## Theorems -/

theorem foldl_push_eq_append {α : Type} (l acc : List α) :
    l.foldl (fun r a => r ++ [a]) acc = acc ++ l := by
  induction l generalizing acc with
  | nil => simp
  | cons a t ih => simp [List.foldl_cons, ih]

theorem chunkCols_length (l : List QF) (r n : ℕ) : (chunkCols l r n).length = n := by
  induction n generalizing l with
  | zero => rfl
  | succ n ih => simp [chunkCols, ih]

/-! ### Loop characterization lemmas for `get_centers` -/

theorem gcLoop_lengths (data : Mat) :
    ∀ (ls cs : List ℕ) (cen : Mat) (cs' : List ℕ) (cen' : Mat),
      gcLoop data ls cs cen = some (cs', cen') →
      cs'.length = cs.length ∧ cen'.length = cen.length := by
  induction data with
  | nil =>
    intro ls cs cen cs' cen' h
    simp only [gcLoop, Option.some.injEq, Prod.mk.injEq] at h
    obtain ⟨h1, h2⟩ := h
    subst h1; subst h2; exact ⟨rfl, rfl⟩
  | cons dcol dcols ih =>
    intro ls cs cen cs' cen' h
    cases ls with
    | nil => simp [gcLoop] at h
    | cons l ls =>
      simp only [gcLoop] at h
      split at h
      · have := ih ls _ _ _ _ h
        simpa [List.length_set] using this
      · cases h

theorem gcLoop_isSome_iff (data : Mat) :
    ∀ (ls cs : List ℕ) (cen : Mat),
      (gcLoop data ls cs cen).isSome = true
      ↔ (data.length ≤ ls.length ∧ ∀ l ∈ ls.take data.length, l < cs.length ∧ l < cen.length) := by
  induction data with
  | nil => intro ls cs cen; simp [gcLoop]
  | cons dcol dcols ih =>
    intro ls cs cen
    cases ls with
    | nil => simp [gcLoop]
    | cons l ls =>
      simp only [gcLoop, List.length_cons, List.take_succ_cons, List.mem_cons,
        Nat.succ_le_succ_iff]
      split
      case isTrue h =>
        rw [ih]
        simp only [List.length_set]
        constructor
        · rintro ⟨h1, h2⟩
          refine ⟨h1, fun p hp => ?_⟩
          rcases hp with hp | hp
          · subst hp; exact h
          · exact h2 p hp
        · rintro ⟨h1, h2⟩
          exact ⟨h1, fun p hp => h2 p (Or.inr hp)⟩
      case isFalse h =>
        simp only [Option.isSome_none, Bool.false_eq_true, false_iff, not_and]
        intro _ hall
        exact h (hall l (Or.inl rfl))

theorem gcLoop_get?_frame (data : Mat) :
    ∀ (ls cs : List ℕ) (cen : Mat) (cs' : List ℕ) (cen' : Mat) (i : ℕ),
      gcLoop data ls cs cen = some (cs', cen') →
      (∀ l ∈ ls.take data.length, l ≠ i) →
      cs'.get? i = cs.get? i ∧ cen'.get? i = cen.get? i := by
  induction data with
  | nil =>
    intro ls cs cen cs' cen' i h _
    simp only [gcLoop, Option.some.injEq, Prod.mk.injEq] at h
    obtain ⟨h1, h2⟩ := h
    subst h1; subst h2; exact ⟨rfl, rfl⟩
  | cons dcol dcols ih =>
    intro ls cs cen cs' cen' i h hne
    cases ls with
    | nil => simp [gcLoop] at h
    | cons l ls =>
      simp only [gcLoop] at h
      split at h
      · have hl : l ≠ i := hne l (by simp [List.take_succ_cons])
        have hrest : ∀ p ∈ ls.take dcols.length, p ≠ i := by
          intro p hp
          exact hne p (by simp [List.take_succ_cons, hp])
        have := ih ls _ _ _ _ i h hrest
        rw [List.get?_set_ne _ _ hl, List.get?_set_ne _ _ hl] at this
        exact this
      · cases h

theorem divLoop_isSome_iff (cs : List ℕ) (r : ℕ) :
    ∀ (i : ℕ) (cen : Mat),
      (divLoop cs i r cen).isSome = true
      ↔ (r = 0 ∨ (i + r ≤ cs.length ∧ i + r ≤ cen.length)) := by
  induction r with
  | zero => intro i cen; simp [divLoop]
  | succ r ih =>
    intro i cen
    simp only [divLoop]
    split
    case isTrue h =>
      rw [ih]
      simp only [List.length_set]
      constructor
      · rintro (h0 | ⟨ha, hb⟩)
        · subst h0; exact Or.inr ⟨by omega, by omega⟩
        · exact Or.inr ⟨by omega, by omega⟩
      · rintro (h0 | ⟨ha, hb⟩)
        · cases h0
        · exact Or.inr ⟨by omega, by omega⟩
    case isFalse h =>
      simp only [Option.isSome_none, Bool.false_eq_true, false_iff]
      rintro (h0 | ⟨ha, hb⟩)
      · cases h0
      · exact h ⟨by omega, by omega⟩

theorem divLoop_length (cs : List ℕ) (r : ℕ) :
    ∀ (i : ℕ) (cen out : Mat), divLoop cs i r cen = some out → out.length = cen.length := by
  induction r with
  | zero =>
    intro i cen out h
    simp only [divLoop, Option.some.injEq] at h
    subst h; rfl
  | succ r ih =>
    intro i cen out h
    simp only [divLoop] at h
    split at h
    · have := ih _ _ _ h
      simpa [List.length_set] using this
    · cases h

theorem divLoop_get? (cs : List ℕ) (r : ℕ) :
    ∀ (i : ℕ) (cen out : Mat), divLoop cs i r cen = some out →
      ∀ j, out.get? j
        = if i ≤ j ∧ j < i + r
          then (cen.get? j).map (fun col => col.map (fun x => qfDiv x (cs.getD j 0)))
          else cen.get? j := by
  induction r with
  | zero =>
    intro i cen out h j
    simp only [divLoop, Option.some.injEq] at h
    subst h
    rw [if_neg (by omega)]
  | succ r ih =>
    intro i cen out h j
    simp only [divLoop] at h
    split at h
    case isTrue hb =>
      have hrec := ih (i + 1) _ _ h j
      by_cases hji : j = i
      · subst hji
        rw [if_neg (by omega)] at hrec
        rw [hrec, if_pos (by omega)]
        have hj : j < cen.length := hb.2
        rw [List.get?_set_eq_of_lt _ hj]
        have hget : cen.get? j = some (cen.getD j []) := by
          rw [List.getD_eq_get?]
          cases hg : cen.get? j with
          | none => rw [List.get?_eq_none] at hg; omega
          | some c => rfl
        rw [hget]
        rfl
      · rw [List.get?_set_ne _ _ (fun he => hji he.symm)] at hrec
        by_cases hc : i + 1 ≤ j ∧ j < i + 1 + r
        · rw [if_pos hc] at hrec
          rw [hrec, if_pos (by omega)]
        · rw [if_neg hc] at hrec
          rw [hrec, if_neg (by omega)]
    case isFalse => cases h

/-! ### Rational-side helper lemmas for the `k = 1` mean computation -/

theorem range_map_getD (a : List ℚ) : ∀ d, a.length = d →
    (List.range d).map (fun j => a.getD j 0) = a := by
  induction a with
  | nil =>
    intro d hd
    simp only [List.length_nil] at hd
    subst hd; simp
  | cons x t ih =>
    intro d hd
    cases d with
    | zero => simp at hd
    | succ d =>
      rw [List.range_succ_eq_map, List.map_cons, List.map_map]
      simp only [List.getD_cons_zero]
      have hd' : t.length = d := by simpa using hd
      have hfun : ((fun j => (x :: t).getD j 0) ∘ (· + 1)) = fun j => t.getD j 0 := by
        funext j; simp
      rw [hfun, ih d hd']

theorem getD_zipWith_add (a : List ℚ) : ∀ (b : List ℚ) (j : ℕ), j < a.length → j < b.length →
    (List.zipWith (· + ·) a b).getD j 0 = a.getD j 0 + b.getD j 0 := by
  induction a with
  | nil => intro b j h _; simp at h
  | cons x t ih =>
    intro b j hja hjb
    cases b with
    | nil => simp at hjb
    | cons y u =>
      cases j with
      | zero => simp
      | succ j =>
        simp only [List.zipWith_cons_cons, List.getD_cons_succ]
        exact ih u j (by simpa using hja) (by simpa using hjb)

theorem foldl_zipWith_sum (qs : List (List ℚ)) : ∀ (d : ℕ) (a : List ℚ), a.length = d →
    (∀ c ∈ qs, c.length = d) →
    qs.foldl (fun x c => List.zipWith (· + ·) x c) a
      = (List.range d).map (fun j => a.getD j 0 + (qs.map (fun c => c.getD j 0)).sum) := by
  induction qs with
  | nil =>
    intro d a ha _
    simp only [List.foldl_nil, List.map_nil, List.sum_nil, add_zero]
    exact (range_map_getD a d ha).symm
  | cons c qs ih =>
    intro d a ha hq
    simp only [List.foldl_cons]
    have hc : c.length = d := hq c (by simp)
    have hzl : (List.zipWith (· + ·) a c).length = d := by
      rw [List.length_zipWith]; omega
    rw [ih d _ hzl (fun c' hc' => hq c' (by simp [hc']))]
    apply List.map_congr_left
    intro j hj
    have hjd : j < d := List.mem_range.mp hj
    rw [getD_zipWith_add a c j (by omega) (by omega)]
    simp [add_assoc]

theorem colAdd_map_some (a : List ℚ) : ∀ b : List ℚ,
    colAdd (a.map some) (b.map some) = (List.zipWith (· + ·) a b).map some := by
  induction a with
  | nil => intro b; simp [colAdd]
  | cons x t ih =>
    intro b
    cases b with
    | nil => simp [colAdd]
    | cons y u =>
      simp only [List.map_cons, List.zipWith_cons_cons]
      show qfAdd (some x) (some y) :: List.zipWith qfAdd (t.map some) (u.map some)
          = some (x + y) :: (List.zipWith (· + ·) t u).map some
      have hh := ih u
      simp only [colAdd] at hh
      rw [hh]
      rfl

theorem foldl_colAdd_map_some (qs : List (List ℚ)) : ∀ a : List ℚ,
    (qs.map (fun c => c.map some)).foldl (fun x col => colAdd x col) (a.map some)
      = (qs.foldl (fun x c => List.zipWith (· + ·) x c) a).map some := by
  induction qs with
  | nil => intro a; simp
  | cons c qs ih =>
    intro a
    simp only [List.map_cons, List.foldl_cons, colAdd_map_some]
    exact ih _

/-! ### Position-indexed lists -/

theorem withIdx_map_snd {α : Type} : ∀ (l : List α) (n : ℕ), (withIdx n l).map Prod.snd = l := by
  intro l
  induction l with
  | nil => intro n; rfl
  | cons a t ih => intro n; simp only [withIdx, List.map_cons, ih]

theorem mem_withIdx_bounds {α : Type} : ∀ (l : List α) (n : ℕ) (p : ℕ × α),
    p ∈ withIdx n l → n ≤ p.1 ∧ l.get? (p.1 - n) = some p.2 := by
  intro l
  induction l with
  | nil => intro n p h; cases h
  | cons a t ih =>
    intro n p h
    cases h with
    | head => simp
    | tail _ h =>
      obtain ⟨h1, h2⟩ := ih (n + 1) p h
      refine ⟨by omega, ?_⟩
      have hs : p.1 - n = (p.1 - (n + 1)) + 1 := by omega
      rw [hs]
      simpa using h2

theorem mem_withIdx_of_mem {α : Type} : ∀ (l : List α) (n : ℕ) (a : α),
    a ∈ l → ∃ i, (i, a) ∈ withIdx n l := by
  intro l
  induction l with
  | nil => intro n a h; cases h
  | cons b t ih =>
    intro n a h
    cases h with
    | head => exact ⟨n, List.mem_cons_self _ _⟩
    | tail _ h =>
      obtain ⟨i, hi⟩ := ih (n + 1) a h
      exact ⟨i, List.mem_cons_of_mem _ hi⟩

theorem withIdx_map_fst_nodup {α : Type} : ∀ (l : List α) (n : ℕ),
    ((withIdx n l).map Prod.fst).Nodup := by
  intro l
  induction l with
  | nil => intro n; simp [withIdx]
  | cons a t ih =>
    intro n
    simp only [withIdx, List.map_cons, List.nodup_cons]
    refine ⟨?_, ih (n + 1)⟩
    intro hmem
    obtain ⟨p, hp, hfst⟩ := List.mem_map.mp hmem
    have := (mem_withIdx_bounds t (n + 1) p hp).1
    omega

theorem withIdx_snd_unique {α : Type} (l : List α) (n : ℕ) (p q : ℕ × α)
    (hp : p ∈ withIdx n l) (hq : q ∈ withIdx n l) (hfst : p.1 = q.1) : p.2 = q.2 := by
  have h1 := (mem_withIdx_bounds l n p hp).2
  have h2 := (mem_withIdx_bounds l n q hq).2
  rw [hfst] at h1
  rw [h1] at h2
  exact Option.some.inj h2

theorem withIdx_zero_getD (l : List ArcRec) (p : ℕ × ArcRec) (hp : p ∈ withIdx 0 l) :
    l.getD p.1 default = p.2 := by
  have h := (mem_withIdx_bounds l 0 p hp).2
  rw [Nat.sub_zero] at h
  rw [List.getD_eq_get?, h]
  rfl

theorem countP_le_one_of_fst_eq {α : Type} : ∀ (l : List (ℕ × α)) (q : ℕ × α → Bool),
    ((l.map Prod.fst).Nodup) →
    (∀ e₁ ∈ l, ∀ e₂ ∈ l, q e₁ = true → q e₂ = true → e₁.1 = e₂.1) →
    l.countP q ≤ 1 := by
  intro l
  induction l with
  | nil => intro q _ _; simp
  | cons h t ih =>
    intro q hn hq
    rw [List.countP_cons]
    simp only [List.map_cons, List.nodup_cons] at hn
    by_cases hqh : q h = true
    · have ht0 : t.countP q = 0 := by
        rw [List.countP_eq_zero]
        intro e he hqe
        have heq := hq e (List.mem_cons_of_mem h he) h (List.mem_cons_self h t) hqe hqh
        exact hn.1 (heq ▸ List.mem_map_of_mem Prod.fst he)
      rw [ht0]
      simp [hqh]
    · have t_le := ih q hn.2
        (fun e1 he1 e2 he2 => hq e1 (List.mem_cons_of_mem _ he1) e2 (List.mem_cons_of_mem _ he2))
      simpa [hqh] using t_le

theorem countP_withIdx_snd {α : Type} (q : α → Bool) : ∀ (l : List α) (n : ℕ),
    (withIdx n l).countP (fun p => q p.2) = l.countP q := by
  intro l
  induction l with
  | nil => intro n; rfl
  | cons a t ih => intro n; simp only [withIdx, List.countP_cons, ih]

/-! ### Greedy and exact ambiguous-arc resolution -/

theorem endpt_update_active (inc : Bool) (a : ArcRec) (b : Bool) :
    endpt inc { a with active := b } = endpt inc a := by
  cases inc <;> rfl

theorem countActive_resolveDir_self (inc : Bool) (arcs : List ArcRec) (v : NodeId) :
    countActive inc (resolveDir inc arcs) v ≤ 1 := by
  unfold countActive resolveDir
  rw [List.countP_map]
  apply countP_le_one_of_fst_eq _ _ (withIdx_map_fst_nodup arcs 0)
  intro e1 h1 e2 h2 hq1 hq2
  simp only [Function.comp, endpt_update_active, Bool.and_eq_true, beq_iff_eq] at hq1 hq2
  obtain ⟨⟨ha1, hb1⟩, hv1⟩ := hq1
  obtain ⟨⟨ha2, hb2⟩, hv2⟩ := hq2
  rw [hv1] at hb1
  rw [hv2] at hb2
  rw [hb1] at hb2
  exact Option.some.inj hb2

theorem countActive_resolveDir_le (inc dir : Bool) (arcs : List ArcRec) (v : NodeId) :
    countActive dir (resolveDir inc arcs) v ≤ countActive dir arcs v := by
  unfold countActive resolveDir
  rw [List.countP_map]
  have hle : (withIdx 0 arcs).countP
      ((fun a => a.active && endpt dir a == v) ∘ (fun p =>
        { p.2 with active := p.2.active && (bestDir inc arcs (endpt inc p.2) == some p.1) }))
      ≤ (withIdx 0 arcs).countP (fun p => p.2.active && endpt dir p.2 == v) := by
    apply List.countP_mono_left
    intro p _ hp
    simp only [Function.comp, endpt_update_active, Bool.and_eq_true, beq_iff_eq] at hp ⊢
    exact ⟨hp.1.1, hp.2⟩
  exact le_trans hle
    (le_of_eq (countP_withIdx_snd (fun a => a.active && endpt dir a == v) arcs 0))

theorem pickBest_spec : ∀ (l : List (ℕ × ArcRec)) (q r : ℕ × ArcRec),
    pickBest (some q) l = some r →
    (r = q ∨ r ∈ l) ∧ r.2.weight ≤ q.2.weight ∧ ∀ p ∈ l, r.2.weight ≤ p.2.weight := by
  intro l
  induction l with
  | nil =>
    intro q r h
    simp only [pickBest, Option.some.injEq] at h
    subst h
    exact ⟨Or.inl rfl, le_refl _, by intro p hp; cases hp⟩
  | cons p rest ih =>
    intro q r h
    simp only [pickBest] at h
    by_cases hc : p.2.weight < q.2.weight
    · rw [if_pos hc] at h
      obtain ⟨hmem, hle, hall⟩ := ih p r h
      refine ⟨?_, le_trans hle (le_of_lt hc), ?_⟩
      · rcases hmem with rfl | hm
        · exact Or.inr (List.mem_cons_self _ _)
        · exact Or.inr (List.mem_cons_of_mem _ hm)
      · intro x hx
        rcases List.mem_cons.mp hx with rfl | hm
        · exact hle
        · exact hall x hm
    · rw [if_neg hc] at h
      obtain ⟨hmem, hle, hall⟩ := ih q r h
      have hqp : q.2.weight ≤ p.2.weight := le_of_not_lt hc
      refine ⟨?_, hle, ?_⟩
      · rcases hmem with rfl | hm
        · exact Or.inl rfl
        · exact Or.inr (List.mem_cons_of_mem _ hm)
      · intro x hx
        rcases List.mem_cons.mp hx with rfl | hm
        · exact le_trans hle hqp
        · exact hall x hm

theorem pickBest_none_spec (l : List (ℕ × ArcRec)) (r : ℕ × ArcRec)
    (h : pickBest none l = some r) : r ∈ l ∧ ∀ p ∈ l, r.2.weight ≤ p.2.weight := by
  cases l with
  | nil => simp [pickBest] at h
  | cons p rest =>
    simp only [pickBest] at h
    obtain ⟨hmem, hle, hall⟩ := pickBest_spec rest p r h
    refine ⟨?_, ?_⟩
    · rcases hmem with rfl | hm
      · exact List.mem_cons_self _ _
      · exact List.mem_cons_of_mem _ hm
    · intro x hx
      rcases List.mem_cons.mp hx with rfl | hm
      · exact hle
      · exact hall x hm

theorem bestDir_min (inc : Bool) (arcs : List ArcRec) (v : NodeId) (i : ℕ)
    (h : bestDir inc arcs v = some i) :
    ∃ a, (i, a) ∈ withIdx 0 arcs ∧ a.active = true ∧ endpt inc a = v
      ∧ ∀ b ∈ arcs, b.active = true → endpt inc b = v → a.weight ≤ b.weight := by
  unfold bestDir at h
  cases hp : pickBest none ((withIdx 0 arcs).filter (fun p => p.2.active && endpt inc p.2 == v)) with
  | none => rw [hp] at h; cases h
  | some r =>
    rw [hp] at h
    simp only [Option.map_some', Option.some.injEq] at h
    obtain ⟨hmem, hall⟩ := pickBest_none_spec _ _ hp
    rw [List.mem_filter] at hmem
    obtain ⟨hmemW, hpred⟩ := hmem
    simp only [Bool.and_eq_true, beq_iff_eq] at hpred
    refine ⟨r.2, ?_, hpred.1, hpred.2, ?_⟩
    · rw [← h]
      simpa using hmemW
    · intro b hb hbact hbv
      obtain ⟨j, hj⟩ := mem_withIdx_of_mem arcs 0 b hb
      have hjf : (j, b) ∈ (withIdx 0 arcs).filter (fun p => p.2.active && endpt inc p.2 == v) :=
        List.mem_filter.mpr ⟨hj, by simp [hbact, hbv]⟩
      exact hall (j, b) hjf

theorem resolveDir_active_elim (inc : Bool) (arcs : List ArcRec) (x : ArcRec)
    (hx : x ∈ resolveDir inc arcs) (hact : x.active = true) :
    ∃ p : ℕ × ArcRec, p ∈ withIdx 0 arcs ∧ p.2.active = true
      ∧ bestDir inc arcs (endpt inc p.2) = some p.1
      ∧ x = { p.2 with active := true } := by
  unfold resolveDir at hx
  obtain ⟨p, hp, hxp⟩ := List.mem_map.mp hx
  subst hxp
  have hX : (p.2.active && (bestDir inc arcs (endpt inc p.2) == some p.1)) = true := hact
  have hdec := hX
  simp only [Bool.and_eq_true, beq_iff_eq] at hdec
  refine ⟨p, hp, hdec.1, hdec.2, ?_⟩
  rw [hX]

theorem resolveDir_active_min (inc : Bool) (arcs : List ArcRec) (x : ArcRec)
    (hx : x ∈ resolveDir inc arcs) (hact : x.active = true) :
    ∀ b ∈ arcs, b.active = true → endpt inc b = endpt inc x → x.weight ≤ b.weight := by
  obtain ⟨p, hp, hpact, hbest, hxe⟩ := resolveDir_active_elim inc arcs x hx hact
  obtain ⟨a, haMem, _, _, haMin⟩ := bestDir_min inc arcs (endpt inc p.2) p.1 hbest
  have hap : a = p.2 := by
    have := withIdx_snd_unique arcs 0 (p.1, a) p haMem (by simpa using hp) rfl
    simpa using this
  intro b hb hbact hbe
  have hxw : x.weight = p.2.weight := by rw [hxe]
  have hxend : endpt inc x = endpt inc p.2 := by rw [hxe]; exact endpt_update_active inc p.2 true
  rw [hxw]
  rw [hxend] at hbe
  have := haMin b hb hbact hbe
  rw [hap] at this
  exact this

theorem resolveDir_active_orig (inc : Bool) (arcs : List ArcRec) (x : ArcRec)
    (hx : x ∈ resolveDir inc arcs) (hact : x.active = true) :
    ∃ y ∈ arcs, y.active = true ∧ y.src = x.src ∧ y.dst = x.dst ∧ y.weight = x.weight := by
  obtain ⟨p, hp, hpact, _, hxe⟩ := resolveDir_active_elim inc arcs x hx hact
  have hy : p.2 ∈ arcs := by
    have := List.mem_map_of_mem Prod.snd hp
    rwa [withIdx_map_snd] at this
  exact ⟨p.2, hy, hpact, by rw [hxe], by rw [hxe], by rw [hxe]⟩

theorem pickMinCost_mem_aux (arcs : List ArcRec) : ∀ (t : List (List ℕ)) (b : List ℕ),
    t.foldl (fun b s => if arcCost arcs s < arcCost arcs b then s else b) b = b
      ∨ t.foldl (fun b s => if arcCost arcs s < arcCost arcs b then s else b) b ∈ t := by
  intro t
  induction t with
  | nil => intro b; exact Or.inl rfl
  | cons s t ih =>
    intro b
    simp only [List.foldl_cons]
    by_cases hc : arcCost arcs s < arcCost arcs b
    · rw [if_pos hc]
      rcases ih s with h | h
      · exact Or.inr (by rw [h]; exact List.mem_cons_self _ _)
      · exact Or.inr (List.mem_cons_of_mem _ h)
    · rw [if_neg hc]
      rcases ih b with h | h
      · exact Or.inl h
      · exact Or.inr (List.mem_cons_of_mem _ h)

theorem pgmSelect_feasible (arcs : List ArcRec) : feasChk arcs (pgmSelect arcs) = true := by
  unfold pgmSelect
  cases hl : (((((withIdx 0 arcs).filter (fun p => p.2.active)).map Prod.fst).sublists).filter
      (fun S => feasChk arcs S)) with
  | nil => simp [pickMinCost, feasChk]
  | cons h t =>
    have hmem : pickMinCost arcs (h :: t) ∈ h :: t := by
      simp only [pickMinCost]
      rcases pickMinCost_mem_aux arcs t h with he | he
      · rw [he]; exact List.mem_cons_self _ _
      · exact List.mem_cons_of_mem _ he
    have hall : ∀ S ∈ h :: t, feasChk arcs S = true := by
      intro S hS
      rw [← hl] at hS
      exact (List.mem_filter.mp hS).2
    exact hall _ hmem

theorem countActive_pgmResolve (inc : Bool) (g : Graph) (v : NodeId) :
    countActive inc (pgmResolve g).arcs v ≤ 1 := by
  unfold countActive pgmResolve
  rw [List.countP_map]
  apply countP_le_one_of_fst_eq _ _ (withIdx_map_fst_nodup g.arcs 0)
  intro e1 h1 e2 h2 hq1 hq2
  simp only [Function.comp, endpt_update_active, Bool.and_eq_true, decide_eq_true_eq,
    beq_iff_eq] at hq1 hq2
  obtain ⟨hs1, hv1⟩ := hq1
  obtain ⟨hs2, hv2⟩ := hq2
  by_contra hne
  have hfeas := pgmSelect_feasible g.arcs
  unfold feasChk at hfeas
  rw [decide_eq_true_eq] at hfeas
  have hsym : Symmetric (fun i j => (g.arcs.getD i default).dst ≠ (g.arcs.getD j default).dst
      ∧ (g.arcs.getD i default).src ≠ (g.arcs.getD j default).src) :=
    fun i j hij => ⟨Ne.symm hij.1, Ne.symm hij.2⟩
  have hrel := List.Pairwise.forall hsym hfeas hs1 hs2 hne
  rw [withIdx_zero_getD g.arcs e1 h1, withIdx_zero_getD g.arcs e2 h2] at hrel
  cases inc with
  | true => exact hrel.1 (hv1.trans hv2.symm)
  | false => exact hrel.2 (hv1.trans hv2.symm)

/-! ### Merger expansion: effect of `refine_node` on the node store -/

theorem nodeIdOf_deactTo (w : NodeId) (ids : List ℕ) (n : NodeRec) :
    nodeIdOf (deactTo w ids n) = nodeIdOf n := by
  unfold deactTo
  split <;> rfl

theorem origFrom_deactTo (w : NodeId) (ids : List ℕ) (n : NodeRec) :
    (deactTo w ids n).origFrom = n.origFrom := by
  unfold deactTo
  split <;> rfl

theorem refine_nodes_eq (E : Extractor) (D : Distance) (g : Graph) (m : NodeRec) :
    (refine_node E D g m).nodes
      = g.nodes.map (deactTo (nodeIdOf m) (childIds E g m)) ++ childrenOf E g m := rfl

theorem refine_ids (E : Extractor) (D : Distance) (g : Graph) (m : NodeRec) :
    ((refine_node E D g m).nodes.map nodeIdOf)
      = g.nodes.map nodeIdOf ++ (childrenOf E g m).map nodeIdOf := by
  rw [refine_nodes_eq, List.map_append, List.map_map]
  congr 1
  exact List.map_congr_left (fun n _ => nodeIdOf_deactTo _ _ n)

theorem get_max_id_ge (g : Graph) (ts : ℕ) :
    ∀ n ∈ g.nodes, n.trax.timestep = ts → n.trax.tid ≤ get_max_id g ts := by
  have haux : ∀ (l : List NodeRec) (acc : ℕ),
      acc ≤ l.foldl (fun a n => max a n.trax.tid) acc
      ∧ ∀ n ∈ l, n.trax.tid ≤ l.foldl (fun a n => max a n.trax.tid) acc := by
    intro l
    induction l with
    | nil => intro acc; exact ⟨le_refl _, by intro n h; cases h⟩
    | cons x t ih =>
      intro acc
      simp only [List.foldl_cons]
      obtain ⟨h1, h2⟩ := ih (max acc x.trax.tid)
      refine ⟨le_trans (le_max_left _ _) h1, ?_⟩
      intro n hn
      cases hn with
      | head => exact le_trans (le_max_right _ _) h1
      | tail _ hn => exact h2 n hn
  intro n hn hts
  unfold get_max_id
  have hmem : n ∈ g.nodes.filter (fun n => n.trax.timestep == ts) :=
    List.mem_filter.mpr ⟨hn, by simp [hts]⟩
  exact (haux _ 0).2 n hmem

theorem child_props (E : Extractor) (hE : ExtractorOK E) (g : Graph) (m : NodeRec) :
    ∀ c ∈ childrenOf E g m,
      c.trax.timestep = m.trax.timestep
      ∧ get_max_id g m.trax.timestep < c.trax.tid
      ∧ c.active = true ∧ c.mcount = 1 ∧ c.origFrom = some m.trax.tid := by
  intro c hc
  unfold childrenOf at hc
  obtain ⟨r, hr, hcr⟩ := List.mem_map.mp hc
  obtain ⟨_, hprops, _⟩ := hE m.trax m.mcount (get_max_id g m.trax.timestep)
  obtain ⟨hts, htid⟩ := hprops r hr
  subst hcr
  exact ⟨hts, htid, rfl, rfl, rfl⟩

theorem child_id_fresh (E : Extractor) (hE : ExtractorOK E) (g : Graph) (m : NodeRec) :
    ∀ c ∈ childrenOf E g m, nodeIdOf c ∉ g.nodes.map nodeIdOf := by
  intro c hc hmem
  obtain ⟨hts, htid, _, _, _⟩ := child_props E hE g m c hc
  obtain ⟨n, hn, hid⟩ := List.mem_map.mp hmem
  have h1 : n.trax.timestep = c.trax.timestep := congrArg NodeId.t hid
  have h2 : n.trax.tid = c.trax.tid := congrArg NodeId.i hid
  have := get_max_id_ge g m.trax.timestep n hn (by rw [h1, hts])
  omega

theorem children_ids_nodup (E : Extractor) (hE : ExtractorOK E) (g : Graph) (m : NodeRec) :
    ((childrenOf E g m).map nodeIdOf).Nodup := by
  unfold childrenOf
  rw [List.map_map]
  obtain ⟨_, _, hnd⟩ := hE m.trax m.mcount (get_max_id g m.trax.timestep)
  have key : (((E m.trax m.mcount (get_max_id g m.trax.timestep)).map
        (nodeIdOf ∘ mkChild m.trax.tid)).map NodeId.i)
      = (E m.trax m.mcount (get_max_id g m.trax.timestep)).map (fun r => r.tid) := by
    rw [List.map_map]
    rfl
  rw [← key] at hnd
  exact List.Nodup.of_map NodeId.i hnd

theorem tgt_deactTo (m : NodeRec) (w : NodeId) (ids : List ℕ) (n : NodeRec)
    (h : nodeIdOf n = w → n.origFrom = none) :
    tgt m (deactTo w ids n) = tgt m n := by
  unfold deactTo
  split
  case isTrue hw =>
    have ho := h hw
    have hL : tgt m { n with active := false, resolvedTo := ids } = false := by
      unfold tgt
      simp
    have hR : tgt m n = false := by
      unfold tgt
      rw [ho, show ((none : Option ℕ) == some m.trax.tid) = false from rfl]
      simp
    rw [hL, hR]
  case isFalse => rfl

theorem countP_congr_mem {α : Type} (l : List α) (p q : α → Bool)
    (h : ∀ a ∈ l, p a = q a) : l.countP p = l.countP q := by
  induction l with
  | nil => rfl
  | cons a t ih =>
    rw [List.countP_cons, List.countP_cons, h a (List.mem_cons_self a t),
      ih (fun b hb => h b (List.mem_cons_of_mem a hb))]

theorem children_countP_tgt (E : Extractor) (hE : ExtractorOK E) (g : Graph) (m' m : NodeRec) :
    (childrenOf E g m').countP (tgt m)
      = if nodeIdOf m' = nodeIdOf m then m'.mcount else 0 := by
  by_cases hid : nodeIdOf m' = nodeIdOf m
  · rw [if_pos hid]
    have hall : ∀ c ∈ childrenOf E g m', tgt m c = true := by
      intro c hc
      obtain ⟨hts, _, hact, hmc, horig⟩ := child_props E hE g m' c hc
      have h1 : m'.trax.timestep = m.trax.timestep := congrArg NodeId.t hid
      have h2 : m'.trax.tid = m.trax.tid := congrArg NodeId.i hid
      unfold tgt
      rw [hts, h1, horig, h2, hact, hmc]
      simp
    rw [List.countP_eq_length.mpr hall]
    unfold childrenOf
    rw [List.length_map]
    exact (hE m'.trax m'.mcount _).1
  · rw [if_neg hid]
    rw [List.countP_eq_zero]
    intro c hc htgt
    obtain ⟨hts, _, _, _, horig⟩ := child_props E hE g m' c hc
    unfold tgt at htgt
    simp only [Bool.and_eq_true, beq_iff_eq] at htgt
    obtain ⟨⟨⟨ht, ho⟩, _⟩, _⟩ := htgt
    apply hid
    have hts' : m'.trax.timestep = m.trax.timestep := by rw [← hts, ht]
    have htid' : m'.trax.tid = m.trax.tid := by
      rw [horig] at ho
      exact Option.some.inj ho
    show (⟨m'.trax.timestep, m'.trax.tid⟩ : NodeId) = ⟨m.trax.timestep, m.trax.tid⟩
    rw [hts', htid']

theorem refine_countP_tgt (E : Extractor) (D : Distance) (hE : ExtractorOK E)
    (g : Graph) (m' m : NodeRec)
    (hD : ∀ n ∈ g.nodes, nodeIdOf n = nodeIdOf m' → n.origFrom = none) :
    (refine_node E D g m').nodes.countP (tgt m)
      = g.nodes.countP (tgt m) + (if nodeIdOf m' = nodeIdOf m then m'.mcount else 0) := by
  rw [refine_nodes_eq, List.countP_append]
  congr 1
  · rw [List.countP_map]
    exact countP_congr_mem g.nodes _ _ (fun n hn => tgt_deactTo m _ _ n (hD n hn))
  · exact children_countP_tgt E hE g m' m

theorem refine_inactive_establish (E : Extractor) (D : Distance) (hE : ExtractorOK E)
    (g : Graph) (m' : NodeRec)
    (hpresent : nodeIdOf m' ∈ g.nodes.map nodeIdOf) :
    ∀ n ∈ (refine_node E D g m').nodes, nodeIdOf n = nodeIdOf m' → n.active = false := by
  intro n hn hid
  rw [refine_nodes_eq] at hn
  rcases List.mem_append.mp hn with hn | hn
  · obtain ⟨n0, hn0, rfl⟩ := List.mem_map.mp hn
    rw [nodeIdOf_deactTo] at hid
    unfold deactTo
    rw [if_pos hid]
  · exact absurd (by rw [hid]; exact hpresent) (child_id_fresh E hE g m' n hn)

theorem refine_inactive_preserve (E : Extractor) (D : Distance) (hE : ExtractorOK E)
    (g : Graph) (m' : NodeRec) (w : NodeId)
    (hw : w ∈ g.nodes.map nodeIdOf)
    (hprev : ∀ n ∈ g.nodes, nodeIdOf n = w → n.active = false) :
    ∀ n ∈ (refine_node E D g m').nodes, nodeIdOf n = w → n.active = false := by
  intro n hn hid
  rw [refine_nodes_eq] at hn
  rcases List.mem_append.mp hn with hn | hn
  · obtain ⟨n0, hn0, rfl⟩ := List.mem_map.mp hn
    rw [nodeIdOf_deactTo] at hid
    unfold deactTo
    split
    · rfl
    · exact hprev n0 hn0 hid
  · exact absurd (by rw [hid]; exact hw) (child_id_fresh E hE g m' n hn)

theorem refine_origFrom_trace (E : Extractor) (D : Distance) (hE : ExtractorOK E)
    (g : Graph) (m' : NodeRec) :
    ∀ n ∈ (refine_node E D g m').nodes, nodeIdOf n ∈ g.nodes.map nodeIdOf →
      ∃ n0 ∈ g.nodes, nodeIdOf n0 = nodeIdOf n ∧ n0.origFrom = n.origFrom := by
  intro n hn hid
  rw [refine_nodes_eq] at hn
  rcases List.mem_append.mp hn with hn | hn
  · obtain ⟨n0, hn0, rfl⟩ := List.mem_map.mp hn
    exact ⟨n0, hn0, (nodeIdOf_deactTo _ _ n0).symm, (origFrom_deactTo _ _ n0).symm⟩
  · exact absurd hid (child_id_fresh E hE g m' n hn)

theorem refine_ids_nodup (E : Extractor) (D : Distance) (hE : ExtractorOK E)
    (g : Graph) (m' : NodeRec) (hnd : (g.nodes.map nodeIdOf).Nodup) :
    ((refine_node E D g m').nodes.map nodeIdOf).Nodup := by
  rw [refine_ids]
  apply List.Nodup.append hnd (children_ids_nodup E hE g m')
  intro a ha hb
  obtain ⟨c, hc, rfl⟩ := List.mem_map.mp hb
  exact child_id_fresh E hE g m' c hc ha

theorem refine_ids_superset (E : Extractor) (D : Distance) (g : Graph) (m' : NodeRec)
    (w : NodeId) (hw : w ∈ g.nodes.map nodeIdOf) :
    w ∈ (refine_node E D g m').nodes.map nodeIdOf := by
  rw [refine_ids]
  exact List.mem_append_left _ hw

theorem fold_refine_preserve (E : Extractor) (D : Distance) (hE : ExtractorOK E) (m : NodeRec) :
    ∀ (L : List NodeRec) (g : Graph),
      (g.nodes.map nodeIdOf).Nodup →
      (∀ m' ∈ L, nodeIdOf m' ∈ g.nodes.map nodeIdOf) →
      (∀ n ∈ g.nodes, ∀ m' ∈ L, nodeIdOf n = nodeIdOf m' → n.origFrom = none) →
      nodeIdOf m ∉ L.map nodeIdOf →
      nodeIdOf m ∈ g.nodes.map nodeIdOf →
      ((L.foldl (refine_node E D) g).nodes.countP (tgt m) = g.nodes.countP (tgt m)
        ∧ ((∀ n ∈ g.nodes, nodeIdOf n = nodeIdOf m → n.active = false) →
            ∀ n ∈ (L.foldl (refine_node E D) g).nodes,
              nodeIdOf n = nodeIdOf m → n.active = false)) := by
  intro L
  induction L with
  | nil => intro g _ _ _ _ _; exact ⟨rfl, fun h => h⟩
  | cons m'' L' ih =>
    intro g hnd hpres hD hmem hgm
    simp only [List.foldl_cons]
    have hm''g : nodeIdOf m'' ∈ g.nodes.map nodeIdOf := hpres m'' (List.mem_cons_self _ _)
    have hDm'' : ∀ n ∈ g.nodes, nodeIdOf n = nodeIdOf m'' → n.origFrom = none :=
      fun n hn h => hD n hn m'' (List.mem_cons_self _ _) h
    have hne : nodeIdOf m'' ≠ nodeIdOf m := by
      intro h
      apply hmem
      simp only [List.map_cons, List.mem_cons]
      exact Or.inl h.symm
    have hnd' := refine_ids_nodup E D hE g m'' hnd
    have hpres' : ∀ m' ∈ L', nodeIdOf m' ∈ (refine_node E D g m'').nodes.map nodeIdOf :=
      fun m' h => refine_ids_superset E D g m'' _ (hpres m' (List.mem_cons_of_mem _ h))
    have hD' : ∀ n ∈ (refine_node E D g m'').nodes, ∀ m' ∈ L',
        nodeIdOf n = nodeIdOf m' → n.origFrom = none := by
      intro n hn m' hm' hid
      obtain ⟨n0, hn0, hid0, horg⟩ := refine_origFrom_trace E D hE g m'' n hn
        (by rw [hid]; exact hpres m' (List.mem_cons_of_mem _ hm'))
      rw [← horg]
      exact hD n0 hn0 m' (List.mem_cons_of_mem _ hm') (by rw [hid0, hid])
    have hmem' : nodeIdOf m ∉ L'.map nodeIdOf := by
      intro h
      apply hmem
      simp only [List.map_cons, List.mem_cons]
      exact Or.inr h
    have hgm' : nodeIdOf m ∈ (refine_node E D g m'').nodes.map nodeIdOf :=
      refine_ids_superset E D g m'' _ hgm
    obtain ⟨hcount, hinact⟩ := ih (refine_node E D g m'') hnd' hpres' hD' hmem' hgm'
    constructor
    · rw [hcount, refine_countP_tgt E D hE g m'' m hDm'', if_neg hne, Nat.add_zero]
    · intro hbase
      exact hinact (refine_inactive_preserve E D hE g m'' (nodeIdOf m) hgm hbase)

theorem fold_refine_count (E : Extractor) (D : Distance) (hE : ExtractorOK E) (m : NodeRec) :
    ∀ (L : List NodeRec) (g : Graph),
      m ∈ L →
      (g.nodes.map nodeIdOf).Nodup →
      (∀ m' ∈ L, nodeIdOf m' ∈ g.nodes.map nodeIdOf) →
      (∀ n ∈ g.nodes, ∀ m' ∈ L, nodeIdOf n = nodeIdOf m' → n.origFrom = none) →
      (∀ m' ∈ L, g.nodes.countP (tgt m') = 0) →
      (L.map nodeIdOf).Nodup →
      ((L.foldl (refine_node E D) g).nodes.countP (tgt m) = m.mcount
        ∧ ∀ n ∈ (L.foldl (refine_node E D) g).nodes,
            nodeIdOf n = nodeIdOf m → n.active = false) := by
  intro L
  induction L with
  | nil => intro g hm; cases hm
  | cons m'' L' ih =>
    intro g hm hnd hpres hD hzero hLnd
    simp only [List.foldl_cons]
    have hm''g : nodeIdOf m'' ∈ g.nodes.map nodeIdOf := hpres m'' (List.mem_cons_self _ _)
    have hDm'' : ∀ n ∈ g.nodes, nodeIdOf n = nodeIdOf m'' → n.origFrom = none :=
      fun n hn h => hD n hn m'' (List.mem_cons_self _ _) h
    have hnd' := refine_ids_nodup E D hE g m'' hnd
    have hpres' : ∀ m' ∈ L', nodeIdOf m' ∈ (refine_node E D g m'').nodes.map nodeIdOf :=
      fun m' h => refine_ids_superset E D g m'' _ (hpres m' (List.mem_cons_of_mem _ h))
    have hD' : ∀ n ∈ (refine_node E D g m'').nodes, ∀ m' ∈ L',
        nodeIdOf n = nodeIdOf m' → n.origFrom = none := by
      intro n hn m' hm' hid
      obtain ⟨n0, hn0, hid0, horg⟩ := refine_origFrom_trace E D hE g m'' n hn
        (by rw [hid]; exact hpres m' (List.mem_cons_of_mem _ hm'))
      rw [← horg]
      exact hD n0 hn0 m' (List.mem_cons_of_mem _ hm') (by rw [hid0, hid])
    have hLnd' : (L'.map nodeIdOf).Nodup ∧ nodeIdOf m'' ∉ L'.map nodeIdOf := by
      simp only [List.map_cons, List.nodup_cons] at hLnd
      exact ⟨hLnd.2, hLnd.1⟩
    have hzero' : ∀ m' ∈ L', (refine_node E D g m'').nodes.countP (tgt m') = 0 := by
      intro m' hm'
      have hne : nodeIdOf m'' ≠ nodeIdOf m' := by
        intro h
        exact hLnd'.2 (by rw [h]; exact List.mem_map_of_mem nodeIdOf hm')
      rw [refine_countP_tgt E D hE g m'' m' hDm'', if_neg hne, Nat.add_zero]
      exact hzero m' (List.mem_cons_of_mem _ hm')
    rcases List.mem_cons.mp hm with rfl | hmL'
    · have hcnt1 : (refine_node E D g m).nodes.countP (tgt m) = m.mcount := by
        rw [refine_countP_tgt E D hE g m m hDm'', if_pos rfl,
          hzero m (List.mem_cons_self _ _), Nat.zero_add]
      have hinact1 : ∀ n ∈ (refine_node E D g m).nodes,
          nodeIdOf n = nodeIdOf m → n.active = false :=
        refine_inactive_establish E D hE g m hm''g
      have hmemL' : nodeIdOf m ∉ L'.map nodeIdOf := hLnd'.2
      have hgm' : nodeIdOf m ∈ (refine_node E D g m).nodes.map nodeIdOf :=
        refine_ids_superset E D g m _ hm''g
      obtain ⟨hc, hi⟩ := fold_refine_preserve E D hE m L' (refine_node E D g m)
        hnd' hpres' hD' hmemL' hgm'
      exact ⟨by rw [hc, hcnt1], hi hinact1⟩
    · exact ih (refine_node E D g m'') hmL' hnd' hpres' hD' hzero' hLnd'.1

theorem applyResolver_nodes (rc : ResolverChoice) (g : Graph) :
    (applyResolver rc g).nodes = g.nodes := by
  cases rc <;> rfl

theorem getD_replicate_zero (d j : ℕ) : (List.replicate d (0 : ℚ)).getD j 0 = 0 := by
  rw [List.getD_eq_getElem?_getD, List.getElem?_replicate]
  split <;> rfl

theorem gcLoop_single (dcols : Mat) : ∀ (ls : List ℕ) (c : ℕ) (acc : List QF),
    dcols.length ≤ ls.length → (∀ l ∈ ls.take dcols.length, l = 0) →
    gcLoop dcols ls [c] [acc]
      = some ([c + dcols.length], [dcols.foldl (fun a col => colAdd a col) acc]) := by
  induction dcols with
  | nil => intro ls c acc _ _; simp [gcLoop]
  | cons dcol dcols ih =>
    intro ls c acc hlen hz
    cases ls with
    | nil => simp at hlen
    | cons l ls =>
      have hl0 : l = 0 := hz l (by simp [List.take_succ_cons])
      subst hl0
      simp only [gcLoop]
      rw [if_pos (by simp)]
      simp only [List.getD_cons_zero, List.set_cons_zero]
      have hrec := ih ls (c + 1) (colAdd acc dcol) (by simpa using hlen)
        (fun p hp => hz p (by simp [List.take_succ_cons, hp]))
      rw [hrec]
      have harith : c + 1 + dcols.length = c + (dcol :: dcols).length := by
        simp [List.length_cons]; omega
      rw [harith]
      rfl

end Pgmlink

/-! ## Claim theorems (constructor and arc collection) -/

open Pgmlink

/-- **C4** — `MergerResolver` construction raises an error iff the graph
pointer is null or the graph lacks `node_active2`, `arc_active` or
`arc_distance`; absence of the provenance attachments never raises, and after
a successful construction both provenance attachments are present. -/
theorem ctor_error_iff_missing_required (g0 : GraphProps) :
    exceptErr (mergerResolverCtor none) = true
    ∧ (exceptErr (mergerResolverCtor (some g0)) = true
        ↔ (g0.node_active2 = false ∨ g0.arc_active = false ∨ g0.arc_distance = false))
    ∧ (∀ g1, mergerResolverCtor (some g0) = .ok g1 →
        g1.merger_resolved_to = true ∧ g1.node_originated_from = true) := by
  revert g0; decide

/-- Witness for `ctor_error_iff_missing_required` at a concrete graph with all
attachments present: construction succeeds and reports both provenance
attachments present. -/
theorem ctor_error_iff_missing_required_witness :
    (⟨true, true, true, true, true⟩ : GraphProps).merger_resolved_to = true
    ∧ (⟨true, true, true, true, true⟩ : GraphProps).node_originated_from = true :=
  (ctor_error_iff_missing_required ⟨true, true, true, true, true⟩).2.2
    ⟨true, true, true, true, true⟩ (by decide)

/-- **C3, counterexample** — constructing on a graph that lacks the required
`node_active2` attachment and also lacks `merger_resolved_to` fails, but the
graph is *not* left unchanged: the constructor adds `merger_resolved_to`
before performing the required-attachment checks. -/
theorem ctor_failure_mutates_graph :
    mergerResolverCtor (some ⟨false, true, true, false, false⟩)
      = .error (some ⟨false, true, true, true, false⟩)
    ∧ (⟨false, true, true, true, false⟩ : GraphProps) ≠ ⟨false, true, true, false, false⟩ := by
  decide

/-- **C3, amended** — if `MergerResolver` construction fails because a
required attachment (`node_active2`, `arc_active` or `arc_distance`) is
missing, the only mutation the graph may have received is the addition of the
`merger_resolved_to` provenance attachment (which the constructor adds before
the required-attachment checks); no other attachment has been added and no
other state mutated — in particular `node_originated_from` is only added after
all checks pass. -/
theorem ctor_failure_only_adds_resolved_to (g0 g1 : GraphProps) :
    mergerResolverCtor (some g0) = .error (some g1) →
      g1 = { g0 with merger_resolved_to := true } := by
  revert g0 g1; decide

/-- Witness for `ctor_failure_only_adds_resolved_to`: the failing construction
of `ctor_failure_mutates_graph` changed nothing but `merger_resolved_to`. -/
theorem ctor_failure_only_adds_resolved_to_witness :
    (⟨false, true, true, true, false⟩ : GraphProps)
      = { (⟨false, true, true, false, false⟩ : GraphProps) with merger_resolved_to := true } :=
  ctor_failure_only_adds_resolved_to ⟨false, true, true, false, false⟩
    ⟨false, true, true, true, false⟩ (by decide)

/-- **C9** — `collect_arcs` demands an empty accumulator (the assertion fires
on any non-empty one), and on an empty accumulator it returns exactly the arcs
yielded by the iterator, in iteration order, nothing pre-existing and nothing
extra. -/
theorem collect_arcs_exact {α : Type} (arcIt res : List α) :
    collect_arcs arcIt res = if res.length = 0 then some arcIt else none := by
  unfold collect_arcs
  by_cases h : res.length = 0
  · have hres : res = [] := List.length_eq_zero.mp h
    simp [hres, foldl_push_eq_append]
  · simp [h]

/-! ## Claim theorems (clustering) -/

/-- **C10, counterexample** — the claimed precondition (the labels vector has
at least as many entries as data columns and every label value is below `k`)
does not by itself make `get_centers` memory-safe: with one data column,
label `0` and `k = 1` the precondition holds, yet on a centers matrix with no
columns the access `centers.col(0)` is out of bounds and the embedded
`get_centers` reports the out-of-bounds access (`none`). -/
theorem get_centers_precondition_insufficient :
    (0 : ℕ) < 1 ∧ 1 ≤ [(0 : ℕ)].length
    ∧ get_centers [[some 0]] [(0 : ℕ)] ([] : Mat) 1 = none := by
  decide

/-- **C10, amended** — `get_centers` performs unchecked indexing by label
value; every memory access (the label iterator, the cluster-size vector, the
columns of `centers` in both loops) is in bounds exactly when the labels
vector has at least as many entries as data columns, every consumed label is
strictly below `k`, and the centers matrix has at least `k` columns. -/
theorem get_centers_isSome_iff (data : Mat) (labels : List ℕ) (centers : Mat) (k : ℕ) :
    (get_centers data labels centers k).isSome = true
    ↔ (data.length ≤ labels.length ∧ (∀ l ∈ labels.take data.length, l < k)
        ∧ k ≤ centers.length) := by
  unfold get_centers
  have hzlen : (zerosLike centers).length = centers.length := by simp [zerosLike]
  cases hg : gcLoop data labels (List.replicate k 0) (zerosLike centers) with
  | none =>
    constructor
    · intro h; cases h
    · rintro ⟨h1, h2, h3⟩
      have hss : (gcLoop data labels (List.replicate k 0) (zerosLike centers)).isSome = true := by
        rw [gcLoop_isSome_iff]
        refine ⟨h1, fun l hl => ?_⟩
        have hlk := h2 l hl
        exact ⟨by simpa using hlk, by omega⟩
      rw [hg] at hss
      cases hss
  | some p =>
    obtain ⟨cs, cen⟩ := p
    have hlens := gcLoop_lengths data labels _ _ _ _ hg
    have hcs : cs.length = k := by simpa using hlens.1
    have hcen : cen.length = centers.length := by rw [hlens.2, hzlen]
    have hgs : (gcLoop data labels (List.replicate k 0) (zerosLike centers)).isSome = true := by
      rw [hg]; rfl
    rw [gcLoop_isSome_iff] at hgs
    obtain ⟨h1, h2⟩ := hgs
    show (divLoop cs 0 k cen).isSome = true ↔ _
    rw [divLoop_isSome_iff]
    constructor
    · rintro (h0 | ⟨ha, hb⟩)
      · subst h0
        exact ⟨h1, fun l hl => absurd ((h2 l hl).1) (by simp), by omega⟩
      · refine ⟨h1, fun l hl => ?_, by omega⟩
        have := (h2 l hl).1
        simpa using this
    · rintro ⟨_, _, h3⟩
      exact Or.inr ⟨by omega, by omega⟩

/-- Witness for `get_centers_isSome_iff`: on a concrete in-bounds input the
computation succeeds. -/
theorem get_centers_isSome_iff_witness :
    (get_centers [[some 0]] [(0 : ℕ)] [[some 0]] 1).isSome = true :=
  (get_centers_isSome_iff [[some 0]] [(0 : ℕ)] [[some 0]] 1).mpr (by decide)

/-- **C6** — for `k = 1` (as `KMeans` invokes `get_centers` after the
clustering assignment, which for a single cluster labels every sample `0`)
and any non-empty finite sample set, `get_centers` returns a single center
equal to the arithmetic mean of the samples. -/
theorem get_centers_k1_mean (qs : List (List ℚ)) (ls : List ℕ) (c0 : List QF) (d : ℕ)
    (hne : qs ≠ []) (hd : ∀ c ∈ qs, c.length = d) (hc0 : c0.length = d)
    (hls : qs.length ≤ ls.length) (hz : ∀ l ∈ ls.take qs.length, l = 0) :
    get_centers (qs.map (fun c => c.map some)) ls [c0] 1
      = some [(arithMean qs d).map some] := by
  have hn : qs.length ≠ 0 := by simpa [List.length_eq_zero] using hne
  have hzl : zerosLike [c0] = [(List.replicate d (0 : ℚ)).map some] := by
    simp [zerosLike, List.map_const', hc0, List.map_replicate]
  have hlen : (qs.map (fun c => c.map some)).length = qs.length := by simp
  have hg := gcLoop_single (qs.map (fun c => c.map some)) ls 0 ((List.replicate d (0 : ℚ)).map some)
      (by rw [hlen]; exact hls) (by rw [hlen]; exact hz)
  unfold get_centers
  rw [hzl, show List.replicate 1 (0 : ℕ) = [0] from rfl, hg, hlen]
  show divLoop [0 + qs.length] 0 1
      [(qs.map (fun c => c.map some)).foldl (fun a col => colAdd a col)
        ((List.replicate d (0 : ℚ)).map some)] = _
  rw [foldl_colAdd_map_some]
  rw [foldl_zipWith_sum qs d (List.replicate d 0) (by simp) hd]
  simp only [getD_replicate_zero, zero_add]
  simp only [divLoop]
  rw [if_pos (by simp)]
  simp only [List.getD_cons_zero, List.set_cons_zero, divLoop]
  refine congrArg (fun z => some [z]) ?_
  unfold arithMean
  simp only [List.map_map]
  apply List.map_congr_left
  intro j hj
  show qfDiv (some ((qs.map (fun c => c.getD j 0)).sum)) qs.length
      = some ((qs.map (fun c => c.getD j 0)).sum / (qs.length : ℚ))
  simp only [qfDiv]
  rw [if_neg hn]

/-- Witness for `get_centers_k1_mean`: two 2-D samples `(0,0)` and `(4,2)`
have mean `(2,1)`. -/
theorem get_centers_k1_mean_witness :
    get_centers ([[0, 0], [4, 2]].map (fun c => c.map some)) [0, 0] [[none, none]] 1
      = some [(arithMean [[0, 0], [4, 2]] 2).map some] :=
  get_centers_k1_mean [[0, 0], [4, 2]] [0, 0] [none, none] 2
    (by decide) (by decide) (by decide) (by decide) (by decide)

/-- **C7, counterexample** — an empty cluster's returned center is neither
all-zero nor the last valid center: with one sample labelled `0` and `k = 2`,
cluster `1` receives no points; its returned center coordinate is the IEEE
value `0.0/0.0` (NaN, embedded `none`), while both the all-zero center and
the last valid center (`cluster 0`) would be `some 0`.  The computation does
not crash, but the claimed disjunction fails. -/
theorem empty_cluster_center_is_nan :
    get_centers [[some 0]] [(0 : ℕ)] [[some 5], [some 7]] 2 = some [[some 0], [none]]
    ∧ [(none : QF)] ≠ [some 0] := by
  constructor
  · show (match gcLoop [[some 0]] [(0 : ℕ)] (List.replicate 2 0)
        (zerosLike [[some 5], [some 7]]) with
      | none => none
      | some (cs, cen) => divLoop cs 0 2 cen) = some [[some 0], [none]]
    norm_num [gcLoop, divLoop, zerosLike, colAdd, qfAdd, qfDiv, List.replicate]
  · decide

/-- **C7, amended** — for every clustering invocation in which some cluster
receives no assigned points, the center computation does not crash (no
out-of-bounds access, given in-bounds labels and a wide-enough centers
matrix), and the empty cluster's returned center has every coordinate equal
to the non-finite IEEE value `0.0/0.0` (NaN, embedded `none`) — not all-zero
and not the last valid center. -/
theorem get_centers_empty_cluster (data : Mat) (labels : List ℕ) (centers : Mat) (k i : ℕ)
    (h1 : data.length ≤ labels.length) (h2 : ∀ l ∈ labels.take data.length, l < k)
    (h3 : k ≤ centers.length) (hik : i < k)
    (hemp : ∀ l ∈ labels.take data.length, l ≠ i) :
    (get_centers data labels centers k).map (fun out => out.getD i [])
      = some ((centers.getD i []).map (fun _ => (none : QF))) := by
  have hzlen : (zerosLike centers).length = centers.length := by simp [zerosLike]
  have hgs : (gcLoop data labels (List.replicate k 0) (zerosLike centers)).isSome = true := by
    rw [gcLoop_isSome_iff]
    refine ⟨h1, fun l hl => ⟨by simpa using h2 l hl, by have := h2 l hl; omega⟩⟩
  obtain ⟨p, hg⟩ := Option.isSome_iff_exists.mp hgs
  obtain ⟨cs, cen⟩ := p
  have hlens := gcLoop_lengths data labels _ _ _ _ hg
  have hcs : cs.length = k := by simpa using hlens.1
  have hcen : cen.length = centers.length := by rw [hlens.2, hzlen]
  have hframe := gcLoop_get?_frame data labels _ _ _ _ i hg hemp
  have hcsi : cs.get? i = some 0 := by
    rw [hframe.1, List.get?_eq_getElem?, List.getElem?_replicate, if_pos hik]
  have hceni : cen.get? i = some ((centers.getD i []).map (fun _ => (some 0 : QF))) := by
    rw [hframe.2]
    have hic : i < centers.length := by omega
    have : centers.get? i = some (centers.getD i []) := by
      rw [List.getD_eq_get?]
      cases hgc : centers.get? i with
      | none => rw [List.get?_eq_none] at hgc; omega
      | some c => rfl
    show (List.map (fun c => c.map (fun _ => (some 0 : QF))) centers).get? i = _
    rw [List.get?_map, this]
    rfl
  have hdivs : (divLoop cs 0 k cen).isSome = true := by
    rw [divLoop_isSome_iff]
    exact Or.inr ⟨by omega, by omega⟩
  obtain ⟨out, hdiv⟩ := Option.isSome_iff_exists.mp hdivs
  have houti := divLoop_get? cs k 0 cen out hdiv i
  rw [if_pos (by omega), hceni] at houti
  have hcs0 : cs.getD i 0 = 0 := by
    rw [List.getD_eq_get?, hcsi]
    rfl
  rw [hcs0] at houti
  have hcol : ((centers.getD i []).map (fun _ => (some 0 : QF))).map (fun x => qfDiv x 0)
      = (centers.getD i []).map (fun _ => (none : QF)) := by
    rw [List.map_map]
    rfl
  have hout_get : out.get? i = some ((centers.getD i []).map (fun _ => (none : QF))) := by
    rw [houti]
    simp only [Option.map_some']
    rw [hcol]
  have hgoal : get_centers data labels centers k = some out := by
    unfold get_centers
    rw [hg]
    exact hdiv
  rw [hgoal]
  simp only [Option.map_some']
  refine congrArg some ?_
  rw [List.getD_eq_get?, hout_get]
  rfl

/-- Witness for `get_centers_empty_cluster`: one sample labelled `0`, `k = 2`;
cluster `1` is empty and its returned center is the all-NaN column. -/
theorem get_centers_empty_cluster_witness :
    (get_centers [[some 0]] [(0 : ℕ)] [[some 5], [some 7]] 2).map (fun out => out.getD 1 [])
      = some ((([[some 5], [some 7]] : Mat).getD 1 []).map (fun _ => (none : QF))) :=
  get_centers_empty_cluster [[some 0]] [(0 : ℕ)] [[some 5], [some 7]] 2 1
    (by decide) (by decide) (by decide) (by decide) (by decide)

/-- **C8** — the flat-array-to-matrix conversion used by `KMeans` throws its
range error exactly when the array size differs from `rows × columns` of the
target matrix, and the (spec-modelled) `KMeans` invocation fails whenever `k`
exceeds the number of samples. -/
theorem clustering_dimension_mismatch :
    (∀ (inp : List QF) (r c : ℕ),
        exceptErr (feature_array_to_arma_mat inp r c) = true ↔ r * c ≠ inp.length)
    ∧ (∀ (assign : ℕ → ℕ) (d k : ℕ) (data : List QF),
        data.length / d < k → exceptErr (KMeansRun assign d k data) = true) := by
  constructor
  · intro inp r c
    unfold feature_array_to_arma_mat
    split
    case isTrue h => simpa [exceptErr] using h
    case isFalse h => simpa [exceptErr] using h
  · intro assign d k data hk
    unfold KMeansRun
    cases hconv : feature_array_to_arma_mat data d (data.length / d) with
    | error e => simp [exceptErr]
    | ok m =>
      have hm : m.length = data.length / d := by
        unfold feature_array_to_arma_mat at hconv
        split at hconv
        · cases hconv
        · cases hconv
          exact chunkCols_length _ _ _
      have hlt : m.length < k := by rw [hm]; exact hk
      simp [exceptErr, hlt]

/-- Witness for `clustering_dimension_mismatch`: three flat entries form one
3-D sample, so clustering with `k = 2` fails. -/
theorem clustering_dimension_mismatch_witness :
    exceptErr (KMeansRun (fun _ => 0) 3 2 [some 0, some 0, some 0]) = true :=
  clustering_dimension_mismatch.2 (fun _ => 0) 3 2 [some 0, some 0, some 0] (by decide)

/-! ## Claim theorems (merger resolution) -/

/-- **C1** — every graph returned by `resolve_mergers`, run with either the
greedy or the exact ambiguous-arc resolver, satisfies the max-one-arc
invariant: every node has at most one active incoming and at most one active
outgoing arc. -/
theorem resolve_mergers_max_one_arc (E : Extractor) (D : Distance) (rc : ResolverChoice)
    (g : Graph) (v : NodeId) :
    countActive true (resolve_mergers E D rc g).arcs v ≤ 1
    ∧ countActive false (resolve_mergers E D rc g).arcs v ≤ 1 := by
  unfold resolve_mergers
  cases rc with
  | greedy =>
    constructor
    · exact le_trans
        (countActive_resolveDir_le false true
          (resolveDir true ((g.nodes.filter isMergerNode).foldl (refine_node E D) g).arcs) v)
        (countActive_resolveDir_self true
          ((g.nodes.filter isMergerNode).foldl (refine_node E D) g).arcs v)
    · exact countActive_resolveDir_self false
        (resolveDir true ((g.nodes.filter isMergerNode).foldl (refine_node E D) g).arcs) v
  | pgm =>
    exact ⟨countActive_pgmResolve true _ v, countActive_pgmResolve false _ v⟩

/-- **C5, counterexample** — the greedy resolver does not keep exactly one of
a node's multiple active same-direction arcs: arcs `u→v` (weight 5), `u→w`
(weight 1), `x→v` (weight 6), all active.  Node `v` has two active incoming
arcs; the incoming pass keeps `u→v` (minimum weight at `v`), but the outgoing
pass at `u` then keeps `u→w` and deactivates `u→v`, leaving `v` with zero
active incoming arcs.  (No resolution can satisfy the claim here: keeping a
minimum-weight arc at `v` and at `u` simultaneously is impossible.) -/
theorem greedy_can_leave_zero_arcs :
    countActive true
      (Graph.mk [] [⟨⟨0, 0⟩, ⟨1, 0⟩, true, 5⟩, ⟨⟨0, 0⟩, ⟨1, 1⟩, true, 1⟩,
        ⟨⟨0, 1⟩, ⟨1, 0⟩, true, 6⟩]).arcs ⟨1, 0⟩ = 2
    ∧ countActive true
      (greedyResolve (Graph.mk [] [⟨⟨0, 0⟩, ⟨1, 0⟩, true, 5⟩, ⟨⟨0, 0⟩, ⟨1, 1⟩, true, 1⟩,
        ⟨⟨0, 1⟩, ⟨1, 0⟩, true, 6⟩])).arcs ⟨1, 0⟩ = 0 := by
  constructor
  · decide
  · decide

/-- **C5, amended** — the greedy resolver leaves every node with *at most*
one active arc per direction (a node with several active same-direction arcs
may even end with zero, when the pass for the opposite direction deactivates
the kept arc at its other endpoint).  It resolves incoming arcs first: any
surviving incoming arc has weight ≤ every originally active incoming arc of
its node (ties broken by the deterministic creation order); it then resolves
outgoing arcs over the arcs still active: any surviving outgoing arc has
weight ≤ every outgoing arc of its node that was still active after the
incoming pass. -/
theorem greedy_at_most_one_min_weight (g : Graph) (v : NodeId) (a b : ArcRec) :
    (countActive true (greedyResolve g).arcs v ≤ 1
      ∧ countActive false (greedyResolve g).arcs v ≤ 1)
    ∧ (a ∈ (greedyResolve g).arcs → a.active = true → a.dst = v →
        b ∈ g.arcs → b.active = true → b.dst = v → a.weight ≤ b.weight)
    ∧ (a ∈ (greedyResolve g).arcs → a.active = true → a.src = v →
        b ∈ resolveDir true g.arcs → b.active = true → b.src = v → a.weight ≤ b.weight) := by
  refine ⟨⟨?_, ?_⟩, ?_, ?_⟩
  · exact le_trans (countActive_resolveDir_le false true (resolveDir true g.arcs) v)
      (countActive_resolveDir_self true g.arcs v)
  · exact countActive_resolveDir_self false (resolveDir true g.arcs) v
  · intro ha haact hav hb hbact hbv
    obtain ⟨y, hy, hyact, hysrc, hydst, hyw⟩ :=
      resolveDir_active_orig false (resolveDir true g.arcs) a ha haact
    have hmin := resolveDir_active_min true g.arcs y hy hyact b hb hbact
      (by show endpt true b = endpt true y; show b.dst = y.dst; rw [hbv, hydst, hav])
    rw [hyw] at hmin
    exact hmin
  · intro ha haact hav hb hbact hbv
    have hmin := resolveDir_active_min false (resolveDir true g.arcs) a ha haact b hb hbact
      (by show endpt false b = endpt false a; show b.src = a.src; rw [hbv, hav])
    exact hmin

/-- **C2** — for every active merger node `m` with merger count `k ≥ 2` of a
well-formed input graph (identifiers unique per time index, no pre-existing
originated-from provenance) and every extractor honoring its contract, after
`resolve_mergers` there exist exactly `k` active nodes at `m`'s time index
whose originated-from provenance equals `m`'s identifier, each with merger
count 1, and every node carrying `m`'s identifier is inactive. -/
theorem resolve_mergers_splits (E : Extractor) (D : Distance) (rc : ResolverChoice)
    (g : Graph) (m : NodeRec)
    (hE : ExtractorOK E)
    (hnd : (g.nodes.map nodeIdOf).Nodup)
    (horig : ∀ n ∈ g.nodes, n.origFrom = none)
    (hm : m ∈ g.nodes) (hact : m.active = true) (hcnt : 2 ≤ m.mcount) :
    (resolve_mergers E D rc g).nodes.countP (tgt m) = m.mcount
    ∧ ∀ n ∈ (resolve_mergers E D rc g).nodes, nodeIdOf n = nodeIdOf m → n.active = false := by
  unfold resolve_mergers
  rw [applyResolver_nodes]
  have hmL : m ∈ g.nodes.filter isMergerNode :=
    List.mem_filter.mpr ⟨hm, by simp [isMergerNode, hact, hcnt]⟩
  have hpres : ∀ m' ∈ g.nodes.filter isMergerNode, nodeIdOf m' ∈ g.nodes.map nodeIdOf :=
    fun m' h => List.mem_map_of_mem nodeIdOf (List.mem_filter.mp h).1
  have hD : ∀ n ∈ g.nodes, ∀ m' ∈ g.nodes.filter isMergerNode,
      nodeIdOf n = nodeIdOf m' → n.origFrom = none :=
    fun n hn _ _ _ => horig n hn
  have hzero : ∀ m' ∈ g.nodes.filter isMergerNode, g.nodes.countP (tgt m') = 0 := by
    intro m' _
    rw [List.countP_eq_zero]
    intro n hn htgt
    unfold tgt at htgt
    rw [horig n hn, show ((none : Option ℕ) == some m'.trax.tid) = false from rfl] at htgt
    simp at htgt
  have hLnd : ((g.nodes.filter isMergerNode).map nodeIdOf).Nodup :=
    List.Nodup.sublist (List.Sublist.map nodeIdOf (List.filter_sublist g.nodes)) hnd
  exact fold_refine_count E D hE m (g.nodes.filter isMergerNode) g hmL hnd hpres hD hzero hLnd

/-- Witness for `resolve_mergers_splits`: a graph with one merger node of
count 2 (identifier 7 at time 3); resolution leaves exactly two active
originated-from-7 nodes of count 1 at time 3. -/
theorem resolve_mergers_splits_witness :
    (resolve_mergers exampleExtractor exampleDistance ResolverChoice.greedy
        exampleGraph).nodes.countP (tgt exampleMerger) = 2 := by
  have hE : ExtractorOK exampleExtractor := by
    intro trax n maxId
    refine ⟨by simp [exampleExtractor], ?_, ?_⟩
    · intro r hr
      simp only [exampleExtractor, List.mem_map, List.mem_range] at hr
      obtain ⟨j, hj, hr⟩ := hr
      subst hr
      exact ⟨rfl, by show maxId < maxId + 1 + j; omega⟩
    · simp only [exampleExtractor, List.map_map]
      have hcomp : ((fun (r : Traxel) => r.tid)
          ∘ fun j => (⟨maxId + 1 + j, trax.timestep, trax.com⟩ : Traxel))
          = fun j => maxId + 1 + j := rfl
      rw [hcomp]
      exact List.Nodup.map (fun a b hab => by omega) (List.nodup_range n)
  exact (resolve_mergers_splits exampleExtractor exampleDistance ResolverChoice.greedy
    exampleGraph exampleMerger hE (by decide) (by decide) (by decide) (by decide) (by decide)).1

/-- Witness for `greedy_at_most_one_min_weight`: on a single-arc graph the
arc survives both passes and its weight bound holds. -/
theorem greedy_at_most_one_min_weight_witness :
    (⟨⟨0, 0⟩, ⟨1, 0⟩, true, 1⟩ : ArcRec).weight ≤ (⟨⟨0, 0⟩, ⟨1, 0⟩, true, 1⟩ : ArcRec).weight :=
  (greedy_at_most_one_min_weight (Graph.mk [] [⟨⟨0, 0⟩, ⟨1, 0⟩, true, 1⟩]) ⟨1, 0⟩
    ⟨⟨0, 0⟩, ⟨1, 0⟩, true, 1⟩ ⟨⟨0, 0⟩, ⟨1, 0⟩, true, 1⟩).2.1
    (by decide) (by decide) (by decide) (by decide) (by decide) (by decide)
